import Mathlib

/-!
# Token storage of `zed` (`internal/storage/token.go`)

A shallow embedding of the token store and of the context resolver of the
`zed` command-line client, followed by the properties of the label codec,
of the API-token splitter, of `KeychainTokenStore` and of `DefaultToken`.

Conventions of the embedding.

* A Go `string` is a Lean `String`, that is, text in valid UTF-8.  Both
  separators used by the code (`"@"` and `"_"`) are one ASCII byte, which
  occurs in UTF-8 text only as that character, so they are passed as a
  `Char`, and splitting a string at that character is splitting its bytes at
  that byte.
* A Go function returning `(T, error)` returns `T × Option Error`, the second
  component being `none` for `nil`.  A `[]byte` payload is the string with
  the same bytes.
* Code that reads or writes the outside world takes the state `s : σ` of that
  world and, when it writes, returns the new state.
* Functions of packages outside the repository (`strings`, `errors`,
  `stringz`, `keyring`) are modelled from their documented behaviour, the
  keyring and the helpers of the repository that are declared in other files
  are parameters.
-/

/-! ## Package `strings` -/

namespace strings

/-- The fields of `s` between the occurrences of `sep`, in order: one field
more than there are separators (`[[]]` for the empty input). -/
def splitChars (sep : Char) : List Char → List (List Char)
  | [] => [[]]
  | c :: cs =>
    if c = sep then [] :: splitChars sep cs
    else (splitChars sep cs).modifyHead (c :: ·)

/-- The fields `elems` concatenated with `sep` between neighbours. -/
def joinChars (sep : Char) : List (List Char) → List Char
  | [] => []
  | [f] => f
  | f :: g :: fs => f ++ sep :: joinChars sep (g :: fs)

/-- Go `strings.Split(s, sep)` for a one-byte separator. -/
def Split (s : String) (sep : Char) : List String :=
  (splitChars sep s.data).map String.mk

/-- Go `strings.Join(elems, sep)` for a one-byte separator. -/
def Join (elems : List String) (sep : Char) : String :=
  ⟨joinChars sep (elems.map String.data)⟩

end strings

/-! ## Package `stringz` -/

namespace stringz

/-- Go `stringz.Join(sep, xs...)`: `strings.Join` with the separator first. -/
def Join (sep : Char) (xs : List String) : String :=
  strings.Join xs sep

/-- Go `stringz.SplitExact(src, sep, vars...)`: splits `src` and stores the
parts into `vars`.  Returns whether it failed (`ErrInconsistentUnpackLen`,
when the number of parts is not the number of variables, in which case no
variable is written) and the variables afterwards. -/
def SplitExact (src : String) (sep : Char) (vars : List String) : Bool × List String :=
  let exploded := strings.Split src sep
  if exploded.length ≠ vars.length then (true, vars) else (false, exploded)

/-- Go `stringz.DefaultEmpty(val, fallback)`. -/
def DefaultEmpty (val fallback : String) : String :=
  if val = "" then fallback else val

end stringz

/-! ## Package `keyring` (the secure-storage backend) -/

namespace keyring

/-- The error values the keyring library hands out: its sentinel for a
missing key, and anything else it reports (I/O, decryption, permissions). -/
inductive Error where
  | ErrKeyNotFound
  | Other (text : String)
  deriving DecidableEq, Repr

/-- Go `keyring.Item`, with the fields the token store reads or writes and
`Description`, which it leaves at its zero value. -/
structure Item where
  Key : String
  Data : String
  Label : String
  Description : String
  deriving DecidableEq, Repr

/-- Go `keyring.Config`, with the two data fields `openKeyring` fills in. -/
structure Config where
  ServiceName : String
  FileDir : String
  deriving DecidableEq, Repr

/-- The `keyring.Keyring` interface, as functions of the backend state. -/
structure Keyring (σ : Type) where
  Get : σ → String → Item × Option Error
  Set : σ → Item → Option Error × σ
  Remove : σ → String → Option Error × σ
  Keys : σ → List String × Option Error

end keyring

/-! ## Package `storage` -/

namespace storage

/-- Go `error` values seen by package `storage`: its own sentinels
(`ErrConfigNotFound` is declared in the configuration file of the package),
values made by `errors.New`, values coming from the keyring library, and an
error wrapping another one. -/
inductive Error where
  | ErrTokenNotFound
  | ErrMultipleTokens
  | ErrConfigNotFound
  | New (text : String)
  | Keyring (e : keyring.Error)
  | Wrap (text : String) (inner : Error)
  deriving DecidableEq, Repr

/-- Go `errors.Is(err, target)`: `err` or an error it wraps is `target`. -/
def errorsIs : Error → Error → Bool
  | .Wrap text inner, target => decide (Error.Wrap text inner = target) || errorsIs inner target
  | err, target => decide (err = target)

/-- Token represents an API Token and all of its metadata. -/
structure Token where
  System : String
  Endpoint : String
  Prefix : String
  Secret : String
  deriving DecidableEq, Repr

/-- Go `Token{}`. -/
def Token.zero : Token := ⟨"", "", "", ""⟩

def keychainSvcName : String := "zed tokens"

def keyringFilename : String := "keyring.jwt"

def redactedMessage : String := "<redacted>"

/-- What `openKeyring` calls outside this file: `localConfigPath` of the
package, `filepath.Join` and `keyring.Open`. -/
structure World (σ : Type) where
  localConfigPath : σ → Except Error String
  filepathJoin : String → String → String
  keyringOpen : σ → keyring.Config → Except Error (keyring.Keyring σ)

variable {σ : Type}

def openKeyring (w : World σ) (s : σ) : Except Error (keyring.Keyring σ) :=
  match w.localConfigPath s with
  | .error err => .error err
  | .ok path =>
    w.keyringOpen s
      { ServiceName := keychainSvcName, FileDir := w.filepathJoin path keyringFilename }

def encodeLabel (pfx endpoint : String) : String :=
  stringz.Join '@' [pfx, endpoint]

def decodeLabel (label : String) : String × String :=
  match stringz.SplitExact label '@' ["", ""] with
  | (true, vars) => (vars.getD 0 "", label)
  | (false, vars) => (vars.getD 0 "", vars.getD 1 "")

def splitAPIToken (token : String) : String × String :=
  let exploded := strings.Split token '_'
  (strings.Join (exploded.take (exploded.length - 1)) '_',
    exploded.getD (exploded.length - 1) "")

/-- The loop of `KeychainTokenStore.List` over the remaining `keys`, with the
tokens appended so far. -/
def KeychainTokenStore.listLoop (ring : keyring.Keyring σ) (s : σ) (revealTokens : Bool) :
    List String → List Token → List Token × Option Error
  | [], tokens => (tokens, none)
  | key :: keys, tokens =>
    match ring.Get s key with
    | (_, some err) => ([], some (.Keyring err))
    | (item, none) =>
      let (pfx, endpoint) := decodeLabel item.Label
      let secret := if revealTokens then item.Data else redactedMessage
      listLoop ring s revealTokens keys
        (tokens ++ [{ System := item.Key, Endpoint := endpoint, Prefix := pfx, Secret := secret }])

/-- List returns all of the tokens in the keychain. -/
def KeychainTokenStore.List (w : World σ) (s : σ) (revealTokens : Bool) :
    List Token × Option Error :=
  match openKeyring w s with
  | .error err => ([], some err)
  | .ok ring =>
    match ring.Keys s with
    | (_, some err) => ([], some (.Keyring err))
    | (keys, none) => KeychainTokenStore.listLoop ring s revealTokens keys []

/-- Get fetches a Token from the keychain. -/
def KeychainTokenStore.Get (w : World σ) (s : σ) (system : String) : Token × Option Error :=
  match openKeyring w s with
  | .error err => (Token.zero, some err)
  | .ok ring =>
    match ring.Get s system with
    | (_, some err) =>
      if err = keyring.Error.ErrKeyNotFound then (Token.zero, some .ErrTokenNotFound)
      else (Token.zero, some (.Keyring err))
    | (item, none) =>
      let (pfx, endpoint) := decodeLabel item.Label
      ({ System := item.Key, Endpoint := endpoint, Prefix := pfx, Secret := item.Data }, none)

/-- Put overwrites a Token in the keychain. -/
def KeychainTokenStore.Put (w : World σ) (s : σ) (system endpoint secret : String) :
    Option Error × σ :=
  let (pfx, secret) := splitAPIToken secret
  match openKeyring w s with
  | .error err => (some err, s)
  | .ok ring =>
    match ring.Set s
        { Key := system, Data := secret, Label := encodeLabel pfx endpoint, Description := "" } with
    | (err, s') => (err.map .Keyring, s')

/-- Delete removes a Token from the keychain. -/
def KeychainTokenStore.Delete (w : World σ) (s : σ) (system : String) : Option Error × σ :=
  match openKeyring w s with
  | .error err => (some err, s)
  | .ok ring =>
    match ring.Remove s system with
    | (err, s') => (err.map .Keyring, s')

/-- DefaultToken creates a Token from input, filling any missing values in
with the current context's defaults.  The call
`CurrentToken(DefaultConfigStore, DefaultTokenStore)` is the parameter
`CurrentToken`, a function of the state of the two stores. -/
def DefaultToken (CurrentToken : σ → (Token × Option Error) × σ)
    (psystem endpoint tokenStr : String) (s : σ) : (Token × Option Error) × σ :=
  if psystem ≠ "" ∧ endpoint ≠ "" ∧ tokenStr ≠ "" then
    (({ System := psystem, Endpoint := endpoint, Prefix := "", Secret := tokenStr }, none), s)
  else
    match CurrentToken s with
    | ((_, some err), s') =>
      if errorsIs err .ErrConfigNotFound then
        ((Token.zero, some (.New "must first save a token: see `zed token save --help`")), s')
      else ((Token.zero, some err), s')
    | ((token, none), s') =>
      (({ System := stringz.DefaultEmpty psystem token.System,
          Endpoint := stringz.DefaultEmpty endpoint token.Endpoint,
          Prefix := token.Prefix,
          Secret := stringz.DefaultEmpty tokenStr token.Secret }, none), s')

/-! ### An in-memory keyring -/

/-- Replaces the entry of `item.Key`, or appends `item` when there is none. -/
def memSet : List keyring.Item → keyring.Item → List keyring.Item
  | [], item => [item]
  | i :: is, item => if i.Key = item.Key then item :: is else i :: memSet is item

/-- A keyring held in memory: the state is the list of stored items, at most
one per key once written through `Set`.  `Get` and `Remove` of a key that is
not stored report `ErrKeyNotFound`. -/
def memKeyring : keyring.Keyring (List keyring.Item) where
  Get := fun s key =>
    match s.find? (fun i => decide (i.Key = key)) with
    | some item => (item, none)
    | none => (⟨"", "", "", ""⟩, some .ErrKeyNotFound)
  Set := fun s item => (none, memSet s item)
  Remove := fun s key =>
    if s.any (fun i => decide (i.Key = key)) then
      (none, s.filter (fun i => !decide (i.Key = key)))
    else (some .ErrKeyNotFound, s)
  Keys := fun s => (s.map (·.Key), none)

/-- The world in which the keyring always opens and is `memKeyring`. -/
def memWorld : World (List keyring.Item) where
  localConfigPath := fun _ => .ok "/home/user/.zed"
  filepathJoin := fun dir name => dir ++ "/" ++ name
  keyringOpen := fun _ _ => .ok memKeyring

/-- A keyring on which every operation fails with `e`. -/
def failingKeyring (e : keyring.Error) : keyring.Keyring Unit where
  Get := fun _ _ => (⟨"", "", "", ""⟩, some e)
  Set := fun s _ => (some e, s)
  Remove := fun s _ => (some e, s)
  Keys := fun _ => ([], some e)

/-- The world in which the keyring opens and is `failingKeyring e`. -/
def failingWorld (e : keyring.Error) : World Unit where
  localConfigPath := fun _ => .ok "/home/user/.zed"
  filepathJoin := fun dir name => dir ++ "/" ++ name
  keyringOpen := fun _ _ => .ok (failingKeyring e)

/-- A `CurrentToken` that answers `result` whatever the state, and counts in
the state how many times it was called. -/
def countingCurrentToken (result : Token × Option Error) : Nat → (Token × Option Error) × Nat :=
  fun calls => (result, calls + 1)

/-! ### The contract of a key-to-item map -/

/-- In the world `w`, a keyring reopened after a successful `Set` returns from
`Get` the item that was set, under that item's key. -/
def GetReturnsLastSet (w : World σ) : Prop :=
  ∀ (s s' : σ) (ring : keyring.Keyring σ) (item : keyring.Item),
    openKeyring w s = .ok ring → ring.Set s item = (none, s') →
    ∃ ring', openKeyring w s' = .ok ring' ∧ ring'.Get s' item.Key = (item, none)

end storage

/-! ## Lemmas on splitting and joining -/

namespace strings

theorem splitChars_ne_nil (sep : Char) (s : List Char) : splitChars sep s ≠ [] := by
  induction s with
  | nil => simp [splitChars]
  | cons c cs ih =>
    unfold splitChars
    split
    · simp
    · cases h : splitChars sep cs with
      | nil => exact absurd h ih
      | cons f fs => simp [List.modifyHead]

theorem splitChars_of_not_mem (sep : Char) (s : List Char) (h : sep ∉ s) :
    splitChars sep s = [s] := by
  induction s with
  | nil => rfl
  | cons c cs ih =>
    have hc : c ≠ sep := fun e => h (by simp [e])
    have hcs : sep ∉ cs := fun e => h (List.mem_cons_of_mem _ e)
    simp [splitChars, hc, ih hcs, List.modifyHead]

theorem splitChars_append_sep (sep : Char) (a b : List Char) (h : sep ∉ a) :
    splitChars sep (a ++ sep :: b) = a :: splitChars sep b := by
  induction a with
  | nil => simp [splitChars]
  | cons c cs ih =>
    have hc : c ≠ sep := fun e => h (by simp [e])
    have hcs : sep ∉ cs := fun e => h (List.mem_cons_of_mem _ e)
    simp [splitChars, hc, ih hcs, List.modifyHead]

theorem length_splitChars (sep : Char) (s : List Char) :
    (splitChars sep s).length = s.count sep + 1 := by
  induction s with
  | nil => rfl
  | cons c cs ih =>
    unfold splitChars
    split
    · next h => subst h; simp [ih]
    · next h =>
      have h2 : ¬ (c == sep) = true := by simpa using h
      rw [List.length_modifyHead, ih, List.count_cons, if_neg h2]

theorem not_mem_of_mem_splitChars (sep : Char) (s f : List Char)
    (hf : f ∈ splitChars sep s) : sep ∉ f := by
  induction s generalizing f with
  | nil =>
    simp [splitChars] at hf
    subst hf
    simp
  | cons c cs ih =>
    unfold splitChars at hf
    split at hf
    · rcases List.mem_cons.1 hf with h | h
      · subst h; simp
      · exact ih f h
    · next hc =>
      cases hs : splitChars sep cs with
      | nil => exact absurd hs (splitChars_ne_nil sep cs)
      | cons g gs =>
        rw [hs] at hf ih
        simp only [List.modifyHead, List.mem_cons] at hf
        rcases hf with h | h
        · subst h
          have := ih g (by simp)
          intro hm
          rcases List.mem_cons.1 hm with e | e
          · exact hc e.symm
          · exact this e
        · exact ih f (by simp [h])

theorem joinChars_cons (sep : Char) (f : List Char) (fs : List (List Char)) (h : fs ≠ []) :
    joinChars sep (f :: fs) = f ++ sep :: joinChars sep fs := by
  cases fs with
  | nil => exact absurd rfl h
  | cons g gs => rfl

theorem joinChars_splitChars (sep : Char) (s : List Char) :
    joinChars sep (splitChars sep s) = s := by
  induction s with
  | nil => rfl
  | cons c cs ih =>
    unfold splitChars
    split
    · next h => subst h; rw [joinChars_cons _ _ _ (splitChars_ne_nil _ _), ih]; rfl
    · cases hs : splitChars sep cs with
      | nil => exact absurd hs (splitChars_ne_nil sep cs)
      | cons g gs =>
        rw [hs] at ih
        cases gs with
        | nil => simpa [List.modifyHead, joinChars] using ih
        | cons g2 gs2 =>
          simp only [List.modifyHead, joinChars] at ih ⊢
          rw [List.cons_append, ih]

theorem joinChars_concat (sep : Char) (fs : List (List Char)) (l : List Char) (h : fs ≠ []) :
    joinChars sep (fs ++ [l]) = joinChars sep fs ++ sep :: l := by
  induction fs with
  | nil => exact absurd rfl h
  | cons f fs ih =>
    cases fs with
    | nil => rfl
    | cons g gs =>
      have := ih (by simp)
      have e1 : joinChars sep (f :: (g :: gs ++ [l])) = f ++ sep :: joinChars sep (g :: gs ++ [l]) :=
        joinChars_cons sep f _ (by simp)
      have e2 : joinChars sep (f :: g :: gs) = f ++ sep :: joinChars sep (g :: gs) :=
        joinChars_cons sep f _ (by simp)
      rw [List.cons_append, e1, this, e2]
      simp

end strings

/-! ## The label codec and the API-token splitter -/

namespace storage

theorem encodeLabel_data (p e : String) :
    (encodeLabel p e).data = p.data ++ '@' :: e.data := rfl

theorem encodeLabel_eq_append (p e : String) : encodeLabel p e = p ++ "@" ++ e := by
  apply String.ext
  rw [encodeLabel_data]
  simp [String.data_append]

theorem decodeLabel_of_length_ne (label : String)
    (h : (strings.splitChars '@' label.data).length ≠ 2) : decodeLabel label = ("", label) := by
  simp [decodeLabel, stringz.SplitExact, strings.Split, h]

theorem decodeLabel_of_split (label : String) (a b : List Char)
    (h : strings.splitChars '@' label.data = [a, b]) : decodeLabel label = (⟨a⟩, ⟨b⟩) := by
  simp [decodeLabel, stringz.SplitExact, strings.Split, h]

theorem decodeLabel_of_count_ne (label : String) (h : label.data.count '@' ≠ 1) :
    decodeLabel label = ("", label) := by
  apply decodeLabel_of_length_ne
  rw [strings.length_splitChars]
  omega

theorem decodeLabel_append (a b : String) (ha : '@' ∉ a.data) (hb : '@' ∉ b.data) :
    decodeLabel (encodeLabel a b) = (a, b) := by
  apply decodeLabel_of_split
  rw [encodeLabel_data, strings.splitChars_append_sep _ _ _ ha,
    strings.splitChars_of_not_mem _ _ hb]

theorem decodeLabel_of_mem_at (p e : String) (h : '@' ∈ p.data ∨ '@' ∈ e.data) :
    decodeLabel (encodeLabel p e) = ("", encodeLabel p e) := by
  apply decodeLabel_of_count_ne
  rw [encodeLabel_data, List.count_append, List.count_cons_self]
  have hp := @List.count_pos_iff _ _ _ '@' p.data
  have he := @List.count_pos_iff _ _ _ '@' e.data
  rcases h with h | h
  · have := hp.2 h; omega
  · have := he.2 h; omega

theorem encodeLabel_ne_snd (p e : String) : encodeLabel p e ≠ e := by
  intro h
  have := congrArg (fun s => s.data.length) h
  simp [encodeLabel_data] at this
  omega

end storage

namespace storage

theorem splitAPIToken_of_split (token : String) (fs : List (List Char)) (l : List Char)
    (h : strings.splitChars '_' token.data = fs ++ [l]) :
    splitAPIToken token = (⟨strings.joinChars '_' fs⟩, ⟨l⟩) := by
  have hid : (String.data ∘ String.mk) = id := rfl
  simp [splitAPIToken, strings.Split, strings.Join, h, List.getD, List.getElem?_append_right, hid]

/-- Claim C1. For all strings `p` and `e` without `@`, decoding the label
encoded from `(p, e)` gives back exactly `(p, e)`; nothing excludes an empty
`p` or `e`. -/
theorem codec_round_trip (p e : String) (hp : '@' ∉ p.data) (he : '@' ∉ e.data) :
    decodeLabel (encodeLabel p e) = (p, e) :=
  decodeLabel_append p e hp he

theorem codec_round_trip_witness :
    ('@' ∉ "".data ∧ '@' ∉ "ep1".data ∧ decodeLabel (encodeLabel "" "ep1") = ("", "ep1")) ∧
    ('@' ∉ "pfx".data ∧ '@' ∉ "".data ∧ decodeLabel (encodeLabel "pfx" "") = ("pfx", "")) :=
  ⟨⟨by decide, by decide, codec_round_trip "" "ep1" (by decide) (by decide)⟩,
    ⟨by decide, by decide, codec_round_trip "pfx" "" (by decide) (by decide)⟩⟩

/-- Claim C7. `splitAPIToken token` is `("", token)` when `token` has no `_`;
otherwise `token` is the returned prefix, one `_`, and the returned secret.
The returned secret never contains `_`, so it is the text after the last
`_`.  The three examples of the specification hold. -/
theorem splitAPIToken_spec (token : String) :
    ('_' ∉ token.data → splitAPIToken token = ("", token)) ∧
    ('_' ∈ token.data →
      token = (splitAPIToken token).1 ++ "_" ++ (splitAPIToken token).2) ∧
    '_' ∉ (splitAPIToken token).2.data ∧
    splitAPIToken "abc_XYZ123" = ("abc", "XYZ123") ∧
    splitAPIToken "XYZ123" = ("", "XYZ123") ∧
    splitAPIToken "a_b_c" = ("a_b", "c") := by
  obtain ⟨fs, l, hfl⟩ : ∃ fs l, strings.splitChars '_' token.data = fs ++ [l] := by
    rcases List.eq_nil_or_concat (strings.splitChars '_' token.data) with h | ⟨fs, l, h⟩
    · exact absurd h (strings.splitChars_ne_nil _ _)
    · exact ⟨fs, l, by simpa using h⟩
  have hsplit := splitAPIToken_of_split token fs l hfl
  refine ⟨?_, ?_, ?_, by decide, by decide, by decide⟩
  · intro h
    have h1 := strings.splitChars_of_not_mem '_' token.data h
    rw [hfl] at h1
    have hfs : fs = [] := by
      cases fs with
      | nil => rfl
      | cons f fs => simp at h1
    subst hfs
    simp at h1
    rw [hsplit, h1]
    rfl
  · intro h
    have hlen := strings.length_splitChars '_' token.data
    have hpos := (@List.count_pos_iff _ _ _ '_' token.data).2 h
    have hfs : fs ≠ [] := by
      intro e
      subst e
      rw [hfl] at hlen
      simp at hlen
      omega
    have hj := strings.joinChars_splitChars '_' token.data
    rw [hfl, strings.joinChars_concat _ _ _ hfs] at hj
    rw [hsplit]
    apply String.ext
    simp [String.data_append, ← hj]
  · rw [hsplit]
    exact strings.not_mem_of_mem_splitChars '_' token.data l (by simp [hfl])

theorem splitAPIToken_spec_witness :
    '_' ∉ "XYZ123".data ∧ splitAPIToken "XYZ123" = ("", "XYZ123") ∧
    '_' ∈ "a_b_c".data ∧
    "a_b_c" = (splitAPIToken "a_b_c").1 ++ "_" ++ (splitAPIToken "a_b_c").2 :=
  ⟨by decide, (splitAPIToken_spec "XYZ123").1 (by decide), by decide,
    (splitAPIToken_spec "a_b_c").2.1 (by decide)⟩

/-- Claim C8. When `@` is absent from `label` or occurs more than once,
`decodeLabel label` is the empty prefix with `label` whole as endpoint; when
`@` occurs exactly once, `label` is the returned prefix, the `@`, and the
returned endpoint (neither of which then contains `@`). -/
theorem decodeLabel_spec (label : String) :
    (label.data.count '@' ≠ 1 → decodeLabel label = ("", label)) ∧
    (label.data.count '@' = 1 →
      label = (decodeLabel label).1 ++ "@" ++ (decodeLabel label).2 ∧
      '@' ∉ (decodeLabel label).1.data ∧ '@' ∉ (decodeLabel label).2.data) := by
  refine ⟨decodeLabel_of_count_ne label, ?_⟩
  intro h
  have hlen := strings.length_splitChars '@' label.data
  rw [h] at hlen
  obtain ⟨a, b, hab⟩ : ∃ a b, strings.splitChars '@' label.data = [a, b] := by
    match hs : strings.splitChars '@' label.data, hlen with
    | [a, b], _ => exact ⟨a, b, rfl⟩
  have hj := strings.joinChars_splitChars '@' label.data
  rw [hab] at hj
  rw [decodeLabel_of_split label a b hab]
  refine ⟨?_, ?_, ?_⟩
  · apply String.ext
    simp [String.data_append, ← hj, strings.joinChars]
  · exact strings.not_mem_of_mem_splitChars '@' label.data a (by simp [hab])
  · exact strings.not_mem_of_mem_splitChars '@' label.data b (by simp [hab])

theorem decodeLabel_spec_witness :
    ("plain".data.count '@' ≠ 1 ∧ decodeLabel "plain" = ("", "plain")) ∧
    ("a@b@c".data.count '@' ≠ 1 ∧ decodeLabel "a@b@c" = ("", "a@b@c")) ∧
    ("pfx@ep1".data.count '@' = 1 ∧
      "pfx@ep1" = (decodeLabel "pfx@ep1").1 ++ "@" ++ (decodeLabel "pfx@ep1").2 ∧
      decodeLabel "pfx@ep1" = ("pfx", "ep1")) :=
  ⟨⟨by decide, (decodeLabel_spec "plain").1 (by decide)⟩,
    ⟨by decide, (decodeLabel_spec "a@b@c").1 (by decide)⟩,
    ⟨by decide, ((decodeLabel_spec "pfx@ep1").2 (by decide)).1, by decide⟩⟩

end storage

/-! ## The token store -/

namespace storage

variable {σ : Type}

theorem find_memSet (s : List keyring.Item) (item : keyring.Item) :
    (memSet s item).find? (fun i => decide (i.Key = item.Key)) = some item := by
  induction s with
  | nil => simp [memSet]
  | cons i is ih =>
    unfold memSet
    split
    · simp
    · next h => simp [List.find?, h, ih]

theorem memWorld_getReturnsLastSet : GetReturnsLastSet memWorld := by
  intro s s' ring item hopen hset
  have hring : ring = memKeyring := by
    simp [openKeyring, memWorld] at hopen
    exact hopen.symm
  subst hring
  have hs : s' = memSet s item := by
    simp [memKeyring] at hset
    exact hset.symm
  subst hs
  refine ⟨memKeyring, rfl, ?_⟩
  simp [memKeyring, find_memSet]

/-- What `Get` reads back after a successful `Put`, in terms of the codec. -/
theorem get_after_put (w : World σ) (s : σ) (system endpoint secret : String)
    (hlaw : GetReturnsLastSet w)
    (hput : (KeychainTokenStore.Put w s system endpoint secret).1 = none) :
    KeychainTokenStore.Get w (KeychainTokenStore.Put w s system endpoint secret).2 system =
      ({ System := system
         Endpoint := (decodeLabel (encodeLabel (splitAPIToken secret).1 endpoint)).2
         Prefix := (decodeLabel (encodeLabel (splitAPIToken secret).1 endpoint)).1
         Secret := (splitAPIToken secret).2 }, none) := by
  unfold KeychainTokenStore.Put at hput ⊢
  cases hopen : openKeyring w s with
  | error err => simp [hopen] at hput
  | ok ring =>
    simp only [hopen] at hput ⊢
    cases hset : ring.Set s
        { Key := system, Data := (splitAPIToken secret).2,
          Label := encodeLabel (splitAPIToken secret).1 endpoint, Description := "" } with
    | mk err s' =>
      simp only [hset] at hput ⊢
      cases err with
      | some e => simp at hput
      | none =>
        obtain ⟨ring', hopen', hget⟩ := hlaw s s' ring _ hopen hset
        simp only [KeychainTokenStore.Get, hopen', hget]

/-- The result of the loop of `List` when every remaining key is read. -/
theorem listLoop_ok (ring : keyring.Keyring σ) (s : σ) (reveal : Bool)
    (item : String → keyring.Item) (keys : List String) (tokens : List Token)
    (hget : ∀ k ∈ keys, ring.Get s k = (item k, none)) :
    KeychainTokenStore.listLoop ring s reveal keys tokens =
      (tokens ++ keys.map (fun k =>
        { System := (item k).Key
          Endpoint := (decodeLabel (item k).Label).2
          Prefix := (decodeLabel (item k).Label).1
          Secret := if reveal then (item k).Data else redactedMessage }), none) := by
  induction keys generalizing tokens with
  | nil => simp [KeychainTokenStore.listLoop]
  | cons k ks ih =>
    have hk := hget k (by simp)
    have hks : ∀ k' ∈ ks, ring.Get s k' = (item k', none) :=
      fun k' h => hget k' (List.mem_cons_of_mem _ h)
    simp only [KeychainTokenStore.listLoop, hk]
    rw [ih _ hks]
    simp

/-- The loop of `List` without reveal only ever appends redacted tokens. -/
theorem listLoop_redacted (ring : keyring.Keyring σ) (s : σ)
    (keys : List String) (tokens : List Token)
    (htok : ∀ t ∈ tokens, t.Secret = redactedMessage) :
    ∀ t ∈ (KeychainTokenStore.listLoop ring s false keys tokens).1,
      t.Secret = redactedMessage := by
  induction keys generalizing tokens with
  | nil => simpa [KeychainTokenStore.listLoop] using htok
  | cons k ks ih =>
    unfold KeychainTokenStore.listLoop
    cases hg : ring.Get s k with
    | mk item err =>
      cases err with
      | some e => simp
      | none =>
        simp only
        apply ih
        intro t ht
        rcases List.mem_append.1 ht with h | h
        · exact htok t h
        · simp at h
          subst h
          rfl

end storage

namespace storage

variable {σ : Type}

/-- Claim C2. On a keyring whose `Get` returns the item last `Set` for a key,
when `endpoint` and the part of `secret` before its last `_` contain no `@`,
a successful `Put system endpoint secret` followed by `Get system` returns
the token made of `system`, `endpoint` and the two halves of
`splitAPIToken secret`.  In particular, from every state of the in-memory
keyring, `Put "sysA" "ep1" "pfx_secX"` succeeds and `Get "sysA"` then
returns the token `sysA`, `ep1`, `pfx`, `secX`. -/
theorem put_then_get (w : World σ) (s : σ) (system endpoint secret : String)
    (hlaw : GetReturnsLastSet w)
    (he : '@' ∉ endpoint.data) (hp : '@' ∉ (splitAPIToken secret).1.data)
    (hput : (KeychainTokenStore.Put w s system endpoint secret).1 = none) :
    KeychainTokenStore.Get w (KeychainTokenStore.Put w s system endpoint secret).2 system =
      ({ System := system, Endpoint := endpoint,
         Prefix := (splitAPIToken secret).1, Secret := (splitAPIToken secret).2 }, none) ∧
    ∀ m : List keyring.Item,
      (KeychainTokenStore.Put memWorld m "sysA" "ep1" "pfx_secX").1 = none ∧
      KeychainTokenStore.Get memWorld
          (KeychainTokenStore.Put memWorld m "sysA" "ep1" "pfx_secX").2 "sysA" =
        ({ System := "sysA", Endpoint := "ep1", Prefix := "pfx", Secret := "secX" }, none) := by
  refine ⟨?_, fun m => ⟨rfl, ?_⟩⟩
  · rw [get_after_put w s system endpoint secret hlaw hput, decodeLabel_append _ _ hp he]
  · rw [get_after_put memWorld m "sysA" "ep1" "pfx_secX" memWorld_getReturnsLastSet rfl]
    rfl

theorem put_then_get_witness :
    GetReturnsLastSet memWorld ∧ '@' ∉ "grpc.example.com:443".data ∧
    '@' ∉ (splitAPIToken "tc_zed_my_laptop_deadbeef").1.data ∧
    (KeychainTokenStore.Put memWorld [⟨"dev", "old", "tc@localhost:50051", ""⟩]
      "dev" "grpc.example.com:443" "tc_zed_my_laptop_deadbeef") =
        (none, [⟨"dev", "deadbeef", "tc_zed_my_laptop@grpc.example.com:443", ""⟩]) ∧
    KeychainTokenStore.Get memWorld
        [⟨"dev", "deadbeef", "tc_zed_my_laptop@grpc.example.com:443", ""⟩] "dev" =
      ({ System := "dev", Endpoint := "grpc.example.com:443",
         Prefix := "tc_zed_my_laptop", Secret := "deadbeef" }, none) :=
  ⟨memWorld_getReturnsLastSet, by decide, by decide, by decide,
    (put_then_get memWorld [⟨"dev", "old", "tc@localhost:50051", ""⟩]
      "dev" "grpc.example.com:443" "tc_zed_my_laptop_deadbeef"
      memWorld_getReturnsLastSet (by decide) (by decide) (by decide)).1⟩

/-- Claim C3. Every token in the result of `List` without reveal has the
placeholder `<redacted>` as its `Secret`, whatever the keyring holds.  When
the keyring opens, lists its keys and reads every item, `List` succeeds with
one token per key, in order, whose `Secret` is the placeholder without
reveal and the stored data with reveal. -/
theorem list_redacts_secrets (w : World σ) (s : σ) :
    (∀ t ∈ (KeychainTokenStore.List w s false).1, t.Secret = "<redacted>") ∧
    ∀ (ring : keyring.Keyring σ) (keys : List String) (item : String → keyring.Item),
      openKeyring w s = .ok ring → ring.Keys s = (keys, none) →
      (∀ k ∈ keys, ring.Get s k = (item k, none)) →
      KeychainTokenStore.List w s false =
        (keys.map (fun k =>
          { System := (item k).Key
            Endpoint := (decodeLabel (item k).Label).2
            Prefix := (decodeLabel (item k).Label).1
            Secret := "<redacted>" }), none) ∧
      KeychainTokenStore.List w s true =
        (keys.map (fun k =>
          { System := (item k).Key
            Endpoint := (decodeLabel (item k).Label).2
            Prefix := (decodeLabel (item k).Label).1
            Secret := (item k).Data }), none) := by
  constructor
  · unfold KeychainTokenStore.List
    cases openKeyring w s with
    | error err => simp
    | ok ring =>
      simp only
      cases hk : ring.Keys s with
      | mk keys err =>
        cases err with
        | some e => simp
        | none => exact listLoop_redacted ring s keys [] (by simp)
  · intro ring keys item hopen hkeys hget
    simp only [KeychainTokenStore.List, hopen, hkeys, listLoop_ok ring s _ item keys [] hget]
    simp [redactedMessage]

theorem list_redacts_secrets_witness :
    KeychainTokenStore.List memWorld
      [⟨"sysA", "secX", "pfx@ep1", ""⟩, ⟨"sysB", "<redacted>", "legacy-endpoint", ""⟩] false =
      ([⟨"sysA", "ep1", "pfx", "<redacted>"⟩, ⟨"sysB", "legacy-endpoint", "", "<redacted>"⟩],
        none) ∧
    KeychainTokenStore.List memWorld
      [⟨"sysA", "secX", "pfx@ep1", ""⟩, ⟨"sysB", "<redacted>", "legacy-endpoint", ""⟩] true =
      ([⟨"sysA", "ep1", "pfx", "secX"⟩, ⟨"sysB", "legacy-endpoint", "", "<redacted>"⟩], none) :=
  (list_redacts_secrets memWorld
    [⟨"sysA", "secX", "pfx@ep1", ""⟩, ⟨"sysB", "<redacted>", "legacy-endpoint", ""⟩]).2
    memKeyring ["sysA", "sysB"]
    (fun k => if k = "sysA" then ⟨"sysA", "secX", "pfx@ep1", ""⟩
      else ⟨"sysB", "<redacted>", "legacy-endpoint", ""⟩)
    rfl rfl (by decide)

end storage

namespace storage

variable {σ : Type}

/-- Claim C9. When the keyring reports its not-found error for `system`,
`Get system` fails with `ErrTokenNotFound` and the zero token; whatever
error `Remove` reports for `system`, `Delete system` fails with that very
error, which is a keyring error and so never `ErrTokenNotFound`; every
other error of the keyring while fetching, and every error of opening the
keyring, is the error of `Get`, unchanged. -/
theorem get_delete_not_found (w : World σ) (s : σ) (system : String) :
    (∀ (ring : keyring.Keyring σ) (item : keyring.Item),
      openKeyring w s = .ok ring → ring.Get s system = (item, some .ErrKeyNotFound) →
      KeychainTokenStore.Get w s system = (Token.zero, some .ErrTokenNotFound)) ∧
    (∀ (ring : keyring.Keyring σ) (e : keyring.Error) (s' : σ),
      openKeyring w s = .ok ring → ring.Remove s system = (some e, s') →
      KeychainTokenStore.Delete w s system = (some (.Keyring e), s') ∧
      Error.Keyring e ≠ Error.ErrTokenNotFound) ∧
    (∀ (ring : keyring.Keyring σ) (item : keyring.Item) (e : keyring.Error),
      openKeyring w s = .ok ring → ring.Get s system = (item, some e) →
      e ≠ .ErrKeyNotFound →
      KeychainTokenStore.Get w s system = (Token.zero, some (.Keyring e))) ∧
    (∀ err : Error, openKeyring w s = .error err →
      KeychainTokenStore.Get w s system = (Token.zero, some err)) := by
  refine ⟨?_, ?_, ?_, ?_⟩
  · intro ring item hopen hget
    simp [KeychainTokenStore.Get, hopen, hget]
  · intro ring e s' hopen hrem
    exact ⟨by simp [KeychainTokenStore.Delete, hopen, hrem], by simp⟩
  · intro ring item e hopen hget hne
    simp [KeychainTokenStore.Get, hopen, hget, hne]
  · intro err hopen
    simp [KeychainTokenStore.Get, hopen]

theorem get_delete_not_found_witness :
    KeychainTokenStore.Get memWorld [⟨"sysA", "secX", "pfx@ep1", ""⟩] "nonexistent" =
      (Token.zero, some .ErrTokenNotFound) ∧
    (KeychainTokenStore.Delete memWorld [⟨"sysA", "secX", "pfx@ep1", ""⟩] "nonexistent" =
      (some (.Keyring .ErrKeyNotFound), [⟨"sysA", "secX", "pfx@ep1", ""⟩]) ∧
      Error.Keyring .ErrKeyNotFound ≠ Error.ErrTokenNotFound) ∧
    KeychainTokenStore.Get (failingWorld (.Other "permission denied")) () "sysA" =
      (Token.zero, some (.Keyring (.Other "permission denied"))) :=
  ⟨(get_delete_not_found memWorld [⟨"sysA", "secX", "pfx@ep1", ""⟩] "nonexistent").1
      memKeyring ⟨"", "", "", ""⟩ rfl (by decide),
    (get_delete_not_found memWorld [⟨"sysA", "secX", "pfx@ep1", ""⟩] "nonexistent").2.1
      memKeyring .ErrKeyNotFound _ rfl (by decide),
    (get_delete_not_found (failingWorld (.Other "permission denied")) () "sysA").2.2.1
      (failingKeyring (.Other "permission denied")) ⟨"", "", "", ""⟩ _ rfl rfl (by decide)⟩

/-- Claim C10. When `p` or `e` contains `@`, decoding the label encoded from
`(p, e)` gives the empty prefix and the whole label `p@e` as endpoint, which
is never `(p, e)`; so the round trip holds exactly when neither contains
`@`.  On a keyring whose `Get` returns the item last `Set`, a successful
`Put` whose endpoint or secret prefix contains `@` is read back by `Get`
with an empty `Prefix` and the whole packed label as `Endpoint`. -/
theorem at_sign_breaks_round_trip (w : World σ) (s : σ)
    (system endpoint secret p e : String) :
    ('@' ∈ p.data ∨ '@' ∈ e.data →
      decodeLabel (encodeLabel p e) = ("", p ++ "@" ++ e) ∧
      decodeLabel (encodeLabel p e) ≠ (p, e)) ∧
    (decodeLabel (encodeLabel p e) = (p, e) ↔ '@' ∉ p.data ∧ '@' ∉ e.data) ∧
    (GetReturnsLastSet w →
      (KeychainTokenStore.Put w s system endpoint secret).1 = none →
      '@' ∈ endpoint.data ∨ '@' ∈ (splitAPIToken secret).1.data →
      KeychainTokenStore.Get w (KeychainTokenStore.Put w s system endpoint secret).2 system =
        ({ System := system, Endpoint := (splitAPIToken secret).1 ++ "@" ++ endpoint,
           Prefix := "", Secret := (splitAPIToken secret).2 }, none)) := by
  have hbreak : '@' ∈ p.data ∨ '@' ∈ e.data →
      decodeLabel (encodeLabel p e) = ("", p ++ "@" ++ e) ∧
      decodeLabel (encodeLabel p e) ≠ (p, e) := by
    intro h
    rw [decodeLabel_of_mem_at p e h, ← encodeLabel_eq_append]
    refine ⟨rfl, fun heq => ?_⟩
    exact encodeLabel_ne_snd p e (congrArg Prod.snd heq)
  refine ⟨hbreak, ⟨fun heq => ?_, fun h => decodeLabel_append p e h.1 h.2⟩, ?_⟩
  · by_contra hcon
    have hmem : '@' ∈ p.data ∨ '@' ∈ e.data := by
      by_cases hp : '@' ∈ p.data
      · exact Or.inl hp
      · by_cases he : '@' ∈ e.data
        · exact Or.inr he
        · exact absurd ⟨hp, he⟩ hcon
    exact (hbreak hmem).2 heq
  · intro hlaw hput hmem
    rw [get_after_put w s system endpoint secret hlaw hput,
      decodeLabel_of_mem_at _ _ hmem.symm, encodeLabel_eq_append]

theorem at_sign_breaks_round_trip_witness :
    ('@' ∈ "".data ∨ '@' ∈ "user@host:443".data) ∧
    decodeLabel (encodeLabel "" "user@host:443") = ("", "@user@host:443") ∧
    decodeLabel (encodeLabel "" "user@host:443") ≠ ("", "user@host:443") ∧
    KeychainTokenStore.Get memWorld
        (KeychainTokenStore.Put memWorld [] "sysA" "user@host:443" "pfx_secX").2 "sysA" =
      ({ System := "sysA", Endpoint := "pfx@user@host:443", Prefix := "",
         Secret := "secX" }, none) :=
  ⟨by decide,
    ((at_sign_breaks_round_trip memWorld [] "sysA" "user@host:443" "pfx_secX"
      "" "user@host:443").1 (by decide)).1,
    ((at_sign_breaks_round_trip memWorld [] "sysA" "user@host:443" "pfx_secX"
      "" "user@host:443").1 (by decide)).2,
    (at_sign_breaks_round_trip memWorld [] "sysA" "user@host:443" "pfx_secX"
      "" "user@host:443").2.2 memWorld_getReturnsLastSet rfl (by decide)⟩

end storage

/-! ## The context resolver -/

namespace storage

variable {σ : Type}

/-- Claim C4. When the three arguments are non-empty, `DefaultToken` succeeds
with the token made of them and an empty `Prefix`, the secret being kept
whole; the result is the same for every `CurrentToken` and every state of
the stores, and the state is returned as it was: nothing is called. -/
theorem defaultToken_all_explicit (CurrentToken : σ → (Token × Option Error) × σ)
    (psystem endpoint tokenStr : String) (s : σ)
    (hs : psystem ≠ "") (he : endpoint ≠ "") (ht : tokenStr ≠ "") :
    DefaultToken CurrentToken psystem endpoint tokenStr s =
      (({ System := psystem, Endpoint := endpoint, Prefix := "", Secret := tokenStr }, none),
        s) := by
  simp [DefaultToken, hs, he, ht]

theorem defaultToken_all_explicit_witness :
    "sysA" ≠ "" ∧ "ep1" ≠ "" ∧ "pfx_secX" ≠ "" ∧
    DefaultToken (countingCurrentToken (⟨"sysB", "ep2", "tc", "other"⟩, none))
        "sysA" "ep1" "pfx_secX" 0 =
      (({ System := "sysA", Endpoint := "ep1", Prefix := "", Secret := "pfx_secX" }, none), 0) :=
  ⟨by decide, by decide, by decide,
    defaultToken_all_explicit _ "sysA" "ep1" "pfx_secX" 0 (by decide) (by decide) (by decide)⟩

/-- Claim C5. When an argument is empty and `CurrentToken` returns the token
`t`, `DefaultToken` succeeds with the token whose `System`, `Endpoint` and
`Secret` are the argument when it is non-empty and the field of `t`
otherwise, and whose `Prefix` is that of `t`. -/
theorem defaultToken_merges (CurrentToken : σ → (Token × Option Error) × σ)
    (psystem endpoint tokenStr : String) (s s' : σ) (t : Token)
    (hempty : psystem = "" ∨ endpoint = "" ∨ tokenStr = "")
    (hcur : CurrentToken s = ((t, none), s')) :
    DefaultToken CurrentToken psystem endpoint tokenStr s =
      (({ System := if psystem ≠ "" then psystem else t.System
          Endpoint := if endpoint ≠ "" then endpoint else t.Endpoint
          Prefix := t.Prefix
          Secret := if tokenStr ≠ "" then tokenStr else t.Secret }, none), s') := by
  have hcond : ¬ (psystem ≠ "" ∧ endpoint ≠ "" ∧ tokenStr ≠ "") := by
    rintro ⟨h1, h2, h3⟩
    rcases hempty with h | h | h
    · exact h1 h
    · exact h2 h
    · exact h3 h
  unfold DefaultToken
  rw [if_neg hcond]
  simp only [hcur, stringz.DefaultEmpty]
  by_cases h1 : psystem = "" <;> by_cases h2 : endpoint = "" <;> by_cases h3 : tokenStr = "" <;>
    simp [h1, h2, h3]

theorem defaultToken_merges_witness :
    ("" = "" ∨ "ep9" = "" ∨ "new_secret" = "") ∧
    DefaultToken (countingCurrentToken (⟨"sysB", "ep2", "tc", "stored"⟩, none))
        "" "ep9" "new_secret" 0 =
      (({ System := "sysB", Endpoint := "ep9", Prefix := "tc", Secret := "new_secret" }, none),
        1) :=
  ⟨by decide,
    defaultToken_merges (countingCurrentToken (⟨"sysB", "ep2", "tc", "stored"⟩, none))
      "" "ep9" "new_secret" 0 1 ⟨"sysB", "ep2", "tc", "stored"⟩ (by decide) rfl⟩

/-- Claim C6. When an argument is empty and `CurrentToken` fails with `err`:
if `err` is or wraps `ErrConfigNotFound`, `DefaultToken` fails with the
setup-instruction error, which neither is nor wraps `ErrConfigNotFound`;
otherwise it fails with `err` itself; the token returned is the zero token
in both cases. -/
theorem defaultToken_resolution_error (CurrentToken : σ → (Token × Option Error) × σ)
    (psystem endpoint tokenStr : String) (s s' : σ) (t : Token) (err : Error)
    (hempty : psystem = "" ∨ endpoint = "" ∨ tokenStr = "")
    (hcur : CurrentToken s = ((t, some err), s')) :
    (errorsIs err .ErrConfigNotFound = true →
      DefaultToken CurrentToken psystem endpoint tokenStr s =
        ((Token.zero, some (.New "must first save a token: see `zed token save --help`")), s') ∧
      Error.New "must first save a token: see `zed token save --help`" ≠ .ErrConfigNotFound ∧
      errorsIs (.New "must first save a token: see `zed token save --help`")
        .ErrConfigNotFound = false) ∧
    (errorsIs err .ErrConfigNotFound = false →
      DefaultToken CurrentToken psystem endpoint tokenStr s = ((Token.zero, some err), s')) := by
  have hcond : ¬ (psystem ≠ "" ∧ endpoint ≠ "" ∧ tokenStr ≠ "") := by
    rintro ⟨h1, h2, h3⟩
    rcases hempty with h | h | h
    · exact h1 h
    · exact h2 h
    · exact h3 h
  constructor
  · intro his
    refine ⟨?_, by simp, by simp [errorsIs]⟩
    unfold DefaultToken
    rw [if_neg hcond]
    simp only [hcur, his, if_true]
  · intro his
    unfold DefaultToken
    rw [if_neg hcond]
    simp [hcur, his]

theorem defaultToken_resolution_error_witness :
    DefaultToken (countingCurrentToken (Token.zero, some .ErrConfigNotFound)) "" "" "" 0 =
      ((Token.zero, some (.New "must first save a token: see `zed token save --help`")), 1) ∧
    DefaultToken
        (countingCurrentToken (Token.zero, some (.Wrap "reading config" .ErrConfigNotFound)))
        "sysA" "" "" 0 =
      ((Token.zero, some (.New "must first save a token: see `zed token save --help`")), 1) ∧
    DefaultToken (countingCurrentToken (Token.zero, some .ErrTokenNotFound)) "" "ep1" "" 0 =
      ((Token.zero, some .ErrTokenNotFound), 1) :=
  ⟨((defaultToken_resolution_error
        (countingCurrentToken (Token.zero, some .ErrConfigNotFound)) "" "" "" 0 1
        Token.zero .ErrConfigNotFound (by decide) rfl).1 (by decide)).1,
    ((defaultToken_resolution_error
        (countingCurrentToken (Token.zero, some (.Wrap "reading config" .ErrConfigNotFound)))
        "sysA" "" "" 0 1 Token.zero (.Wrap "reading config" .ErrConfigNotFound)
        (by decide) rfl).1 (by decide)).1,
    (defaultToken_resolution_error
        (countingCurrentToken (Token.zero, some .ErrTokenNotFound)) "" "ep1" "" 0 1
        Token.zero .ErrTokenNotFound (by decide) rfl).2 (by decide)⟩

end storage
